import Mathlib

/-!
Verification of the graph-construction and BFS core of `app_bfs.py`
(`parsear_entrada_a_grafo`, `bfs_grados_de_separacion`).

The Python dictionary `grafo` is modelled as an association list
`List (Nodo × List Nodo)`, which preserves key insertion order exactly as a
Python `dict` does.  Text is modelled as `String` / `List Char`.  The `\w`
character class of `re.findall(r'[\w]+', ...)` is modelled over its ASCII
behaviour (letters, digits, underscore), which covers every input the
program's claims are about.  The unbounded `while cola:` loop is modelled by
explicit fuel together with a proof (`bucleBFS_isSome`) that the chosen fuel
is always sufficient, so the fuel never runs out.
-/

set_option maxRecDepth 100000

abbrev Nodo := String

abbrev Grafo := List (Nodo × List Nodo)

/-- `grafo.get(n, [])` — neighbour lookup with default empty list
(line 56 of `app_bfs.py`). -/
def vecinos (g : Grafo) (n : Nodo) : List Nodo :=
  (g.lookup n).getD []

/-- `n in grafo` — membership among the dictionary keys. -/
def tieneClave (g : Grafo) (n : Nodo) : Bool :=
  (g.lookup n).isSome

/-- Dictionary assignment `g[k] = v`: replaces the value at the first
occurrence of `k`, or appends a fresh key at the end (Python dicts keep
insertion order). -/
def fijaClave : Grafo → Nodo → List Nodo → Grafo
  | [], k, v => [(k, v)]
  | (k', v') :: g, k, v =>
    if k' = k then (k, v) :: g else (k', v') :: fijaClave g k v

/-- `if k not in grafo: grafo[k] = []` (lines 26-29). -/
def aseguraClave (g : Grafo) (k : Nodo) : Grafo :=
  if tieneClave g k then g else g ++ [(k, [])]

/-- Lines 26-35 of `app_bfs.py`: ensure both endpoints exist as keys, then
append each endpoint to the other's neighbour list unless already present. -/
def agregaArista (g : Grafo) (n1 n2 : Nodo) : Grafo :=
  let g1 := aseguraClave g n1
  let g2 := aseguraClave g1 n2
  let l1 := vecinos g2 n1
  let g3 := if n2 ∈ l1 then g2 else fijaClave g2 n1 (l1 ++ [n2])
  let l2 := vecinos g3 n2
  if n1 ∈ l2 then g3 else fijaClave g3 n2 (l2 ++ [n1])

/-- Python `str.isspace` characters relevant to `str.strip()` (ASCII part). -/
def pyEsEspacio (c : Char) : Bool :=
  c = ' ' || c = '\t' || c = '\n' || c = '\r' || c = '\x0b' || c = '\x0c'

/-- A character matched by the regex class `[\w]` (ASCII part):
letters, digits and underscore. -/
def esCarPalabra (c : Char) : Bool :=
  c.isAlphanum || c = '_'

/-- Python `str.strip()`: remove leading and trailing whitespace. -/
def pyStrip (s : List Char) : List Char :=
  ((s.dropWhile pyEsEspacio).reverse.dropWhile pyEsEspacio).reverse

/-- Python `str.split('\n')`. -/
def separaLineas : List Char → List (List Char)
  | [] => [[]]
  | c :: cs =>
    if c = '\n' then [] :: separaLineas cs
    else
      match separaLineas cs with
      | [] => [[c]]
      | l :: ls => (c :: l) :: ls

/-- Scanner for `re.findall(r'[\w]+', s)`: `run` holds the current maximal
word-character run, reversed. -/
def extraeTokensAux : List Char → List Char → List (List Char)
  | [], run => if run = [] then [] else [run.reverse]
  | c :: cs, run =>
    if esCarPalabra c then extraeTokensAux cs (c :: run)
    else if run = [] then extraeTokensAux cs []
    else run.reverse :: extraeTokensAux cs []

/-- `re.findall(r'[\w]+', s)`: the maximal word-character runs of `s`
(line 20 of `app_bfs.py`). -/
def extraeTokens (cs : List Char) : List (List Char) :=
  extraeTokensAux cs []

/-- The body of the `for linea in lineas` loop (lines 18-35): a line
contributes an edge exactly when it tokenizes to two tokens. -/
def procesarLinea (g : Grafo) (linea : List Char) : Grafo :=
  match extraeTokens (pyStrip linea) with
  | [t1, t2] => agregaArista g (String.mk t1) (String.mk t2)
  | _ => g

/-- `parsear_entrada_a_grafo` (lines 11-37 of `app_bfs.py`). -/
def parsear_entrada_a_grafo (texto : String) : Grafo :=
  (separaLineas (pyStrip texto.data)).foldl procesarLinea []

/-- All node names mentioned anywhere in the adjacency structure
(keys and neighbour-list entries); used only to bound the search. -/
def nodosDelGrafo (g : Grafo) : List Nodo :=
  g.foldr (fun e acc => e.1 :: (e.2 ++ acc)) []

/-- Number of graph-node occurrences not yet visited; the termination
measure of the BFS loop. -/
def cuentaNoVisitados (g : Grafo) (vis : List Nodo) : Nat :=
  ((nodosDelGrafo g).filter (fun x => decide (x ∉ vis))).length

/-- The inner `for vecino in grafo.get(nodo_actual, [])` loop
(lines 56-59): enqueue each not-yet-visited neighbour, marking it
visited immediately. -/
def encolaVecinos (camino : List Nodo) :
    List Nodo → List (Nodo × List Nodo) → List Nodo →
    List (Nodo × List Nodo) × List Nodo
  | [], cola, visitados => (cola, visitados)
  | v :: vs, cola, visitados =>
    if v ∈ visitados then encolaVecinos camino vs cola visitados
    else encolaVecinos camino vs (cola ++ [(v, camino ++ [v])]) (visitados ++ [v])

/-- The `while cola:` loop (lines 50-61), with explicit fuel.  `none` means
the fuel ran out (shown impossible for the fuel used by the program,
`bucleBFS_isSome`); `some none` is the loop falling through with an empty
queue; `some (some camino)` is the early return at the target. -/
def bucleBFS (g : Grafo) (destino : Nodo) :
    Nat → List (Nodo × List Nodo) → List Nodo → Option (Option (List Nodo))
  | 0, _, _ => none
  | _ + 1, [], _ => some none
  | fuel + 1, (nodoActual, caminoActual) :: resto, visitados =>
    if nodoActual = destino then some (some caminoActual)
    else
      bucleBFS g destino fuel
        (encolaVecinos caminoActual (vecinos g nodoActual) resto visitados).1
        (encolaVecinos caminoActual (vecinos g nodoActual) resto visitados).2

/-- Fuel that always suffices for `bucleBFS` (see `bucleBFS_isSome`). -/
def fuelSuficiente (g : Grafo) : Nat :=
  (nodosDelGrafo g).length + 2

def mensajeNodoInexistente : String :=
  "Error: El nodo de inicio o destino no existe en el grafo definido."

def mensajeSinConexion : String :=
  "No hay conexión posible entre los dos nodos seleccionados."

/-- `bfs_grados_de_separacion` (lines 39-61 of `app_bfs.py`): returns the
pair `(ruta, error)`. -/
def bfs_grados_de_separacion (g : Grafo) (inicio destino : Nodo) :
    Option (List Nodo) × Option String :=
  if !tieneClave g inicio || !tieneClave g destino then
    (none, some mensajeNodoInexistente)
  else
    match bucleBFS g destino (fuelSuficiente g) [(inicio, [inicio])] [inicio] with
    | some (some ruta) => (some ruta, none)
    | _ => (none, some mensajeSinConexion)

/-- A walk in the adjacency structure: `Camino g a b p` says that `p` is a
nonempty node sequence from `a` to `b` in which each node is followed by one
of its listed neighbours.  Repeated nodes are allowed, so minimality over
`Camino` is at least as strong as minimality over repetition-free paths. -/
inductive Camino (g : Grafo) : Nodo → Nodo → List Nodo → Prop
  | solo (a : Nodo) : Camino g a a [a]
  | paso (a b t : Nodo) (p : List Nodo) :
      b ∈ vecinos g a → Camino g b t p → Camino g a t (a :: p)

/-- `DEFAULT_CONNECTIONS` (lines 135-147 of `app_bfs.py`). -/
def DEFAULT_CONNECTIONS : String :=
  "\nA B\nB C\nC D\nD E\nE F\nA G\nG H\nH I\nI J\nJ F\nC G\n"

/-- Keys of the adjacency mapping, in insertion order. -/
def claves (g : Grafo) : List Nodo :=
  g.map Prod.fst

/-- A node name as produced by the tokenizer: a non-empty run of
word characters. -/
def buenNombre (s : Nodo) : Prop :=
  s.data ≠ [] ∧ ∀ c ∈ s.data, esCarPalabra c = true

/-- Every key and every neighbour entry of the mapping is a well-formed
token name. -/
def BuenosNombres (g : Grafo) : Prop :=
  (∀ a, tieneClave g a = true → buenNombre a) ∧
  (∀ a b, b ∈ vecinos g a → buenNombre b)

/-- All directed adjacency entries of the mapping, as ordered pairs. -/
def paresDeGrafo (g : Grafo) : List (Nodo × Nodo) :=
  (g.map (fun e => e.2.map (fun b => (e.1, b)))).flatten

/-- Modelled from the spec: the repository has no renderer of its own, so
this is the spec's "edge-list textual form (one edge per line, two tokens
per line)" for a single adjacency entry: the two node names separated by a
space. -/
def lineaDePar (par : Nodo × Nodo) : List Char :=
  par.1.data ++ ' ' :: par.2.data

/-- Modelled from the spec: one edge line per directed adjacency entry of
the mapping. -/
def lineasDeGrafo (g : Grafo) : List (List Char) :=
  (paresDeGrafo g).map lineaDePar

/-- Join lines with newline separators (inverse of `separaLineas`). -/
def intercalaLineas : List (List Char) → List Char
  | [] => []
  | [l] => l
  | l :: l' :: ls => l ++ '\n' :: intercalaLineas (l' :: ls)

/-- Modelled from the spec: "`build_graph(text)` rendered back to the same
textual form", i.e. the edge-list text with one edge per line and two
tokens per line. -/
def renderizaGrafo (g : Grafo) : String :=
  String.mk (intercalaLineas (lineasDeGrafo g))

/-! ### Association-list lemmas -/

theorem lookup_cons_ne (k k' : Nodo) (v' : List Nodo) (g : Grafo) (h : k ≠ k') :
    (((k', v') :: g) : Grafo).lookup k = g.lookup k := by
  have hb : (k == k') = false := by
    simpa using h
  rw [List.lookup_cons, hb]

theorem lookup_mem {g : Grafo} {k : Nodo} {v : List Nodo}
    (h : g.lookup k = some v) : (k, v) ∈ g := by
  induction g with
  | nil => simp at h
  | cons e g ih =>
    obtain ⟨k', v'⟩ := e
    by_cases hk : k = k'
    · subst hk
      rw [List.lookup_cons_self] at h
      simp at h
      simp [h]
    · rw [lookup_cons_ne _ _ _ _ hk] at h
      exact List.mem_cons_of_mem _ (ih h)

theorem mem_nodosDelGrafo_key {g : Grafo} {k : Nodo} {v : List Nodo}
    (h : (k, v) ∈ g) : k ∈ nodosDelGrafo g := by
  induction g with
  | nil => simp at h
  | cons e g ih =>
    rcases List.mem_cons.1 h with h | h
    · subst h; simp [nodosDelGrafo]
    · simp only [nodosDelGrafo, List.foldr_cons] at *
      simp [ih h]

theorem mem_nodosDelGrafo_val {g : Grafo} {k b : Nodo} {v : List Nodo}
    (h : (k, v) ∈ g) (hb : b ∈ v) : b ∈ nodosDelGrafo g := by
  induction g with
  | nil => simp at h
  | cons e g ih =>
    rcases List.mem_cons.1 h with h | h
    · subst h; simp [nodosDelGrafo, hb]
    · simp only [nodosDelGrafo, List.foldr_cons] at *
      simp [ih h]

theorem mem_vecinos_nodosDelGrafo {g : Grafo} {a b : Nodo}
    (h : b ∈ vecinos g a) : b ∈ nodosDelGrafo g := by
  unfold vecinos at h
  cases hl : g.lookup a with
  | none => rw [hl] at h; simp at h
  | some v =>
    rw [hl] at h
    exact mem_nodosDelGrafo_val (lookup_mem hl) h

theorem lookup_fijaClave_self (g : Grafo) (k : Nodo) (v : List Nodo) :
    (fijaClave g k v).lookup k = some v := by
  induction g with
  | nil => simp [fijaClave]
  | cons e g ih =>
    obtain ⟨k', v'⟩ := e
    by_cases h : k' = k
    · simp [fijaClave, h]
    · simpa [fijaClave, h, lookup_cons_ne _ _ _ _ (Ne.symm h)] using ih

theorem lookup_fijaClave_ne (g : Grafo) (k k' : Nodo) (v : List Nodo)
    (h : k' ≠ k) : (fijaClave g k v).lookup k' = g.lookup k' := by
  induction g with
  | nil =>
    show List.lookup k' [(k, v)] = List.lookup k' []
    rw [lookup_cons_ne _ _ _ _ h, List.lookup_nil]
  | cons e g ih =>
    obtain ⟨k'', v''⟩ := e
    by_cases hk : k'' = k
    · have hk' : k' ≠ k'' := fun he => h (he.trans hk)
      rw [show fijaClave ((k'', v'') :: g) k v = (k, v) :: g from by
        simp [fijaClave, hk]]
      rw [lookup_cons_ne _ _ _ _ h, lookup_cons_ne _ _ _ _ hk']
    · rw [show fijaClave ((k'', v'') :: g) k v = (k'', v'') :: fijaClave g k v from by
        simp [fijaClave, hk]]
      by_cases hk' : k' = k''
      · subst hk'
        rw [List.lookup_cons_self, List.lookup_cons_self]
      · rw [lookup_cons_ne _ _ _ _ hk', lookup_cons_ne _ _ _ _ hk']
        exact ih

theorem lookup_aseguraClave_self (g : Grafo) (k : Nodo) :
    (aseguraClave g k).lookup k = some ((g.lookup k).getD []) := by
  unfold aseguraClave tieneClave
  cases hl : g.lookup k with
  | none =>
    simp only [Option.isSome_none, Bool.false_eq_true, if_false]
    rw [List.lookup_append, hl]
    simp
  | some v => simp [hl]

theorem lookup_aseguraClave_ne (g : Grafo) (k k' : Nodo) (h : k' ≠ k) :
    (aseguraClave g k).lookup k' = g.lookup k' := by
  unfold aseguraClave
  split
  · rfl
  · rw [List.lookup_append]
    cases hl : g.lookup k' with
    | none => simp [lookup_cons_ne _ _ _ _ h]
    | some v => simp

theorem vecinos_fijaClave_self (g : Grafo) (k : Nodo) (v : List Nodo) :
    vecinos (fijaClave g k v) k = v := by
  simp [vecinos, lookup_fijaClave_self]

theorem vecinos_fijaClave_ne (g : Grafo) (k k' : Nodo) (v : List Nodo)
    (h : k' ≠ k) : vecinos (fijaClave g k v) k' = vecinos g k' := by
  simp [vecinos, lookup_fijaClave_ne _ _ _ _ h]

theorem vecinos_aseguraClave (g : Grafo) (k a : Nodo) :
    vecinos (aseguraClave g k) a = vecinos g a := by
  by_cases h : a = k
  · subst h
    unfold vecinos
    rw [lookup_aseguraClave_self]
    cases g.lookup a <;> simp
  · simp [vecinos, lookup_aseguraClave_ne _ _ _ h]

theorem tieneClave_fijaClave (g : Grafo) (k k' : Nodo) (v : List Nodo) :
    tieneClave (fijaClave g k v) k' = true ↔ tieneClave g k' = true ∨ k' = k := by
  by_cases h : k' = k
  · subst h
    simp [tieneClave, lookup_fijaClave_self]
  · simp [tieneClave, lookup_fijaClave_ne _ _ _ _ h, h]

theorem tieneClave_aseguraClave (g : Grafo) (k k' : Nodo) :
    tieneClave (aseguraClave g k) k' = true ↔ tieneClave g k' = true ∨ k' = k := by
  by_cases h : k' = k
  · subst h
    simp [tieneClave, lookup_aseguraClave_self]
  · simp [tieneClave, lookup_aseguraClave_ne _ _ _ h, h]

theorem vecinos_ne_nil_tieneClave {g : Grafo} {a b : Nodo}
    (h : b ∈ vecinos g a) : tieneClave g a = true := by
  unfold vecinos at h
  unfold tieneClave
  cases hl : g.lookup a with
  | none => rw [hl] at h; simp at h
  | some v => simp

/-- One half of `agregaArista`: the conditional `if n2 not in g[n1]:
g[n1].append(n2)` step, as a membership characterisation. -/
theorem mem_vecinos_pasoArista (g : Grafo) (x y a b : Nodo) :
    b ∈ vecinos (if y ∈ vecinos g x then g
                 else fijaClave g x (vecinos g x ++ [y])) a ↔
      b ∈ vecinos g a ∨ (a = x ∧ b = y) := by
  split
  · constructor
    · exact Or.inl
    · rintro (h | ⟨rfl, rfl⟩)
      · exact h
      · assumption
  · by_cases ha : a = x
    · subst ha
      rw [vecinos_fijaClave_self]
      simp
    · rw [vecinos_fijaClave_ne _ _ _ _ ha]
      simp [ha]

theorem tieneClave_pasoArista (g : Grafo) (x y a : Nodo) :
    tieneClave (if y ∈ vecinos g x then g
                else fijaClave g x (vecinos g x ++ [y])) a = true ↔
      tieneClave g a = true ∨ a = x := by
  split
  · rename_i hmem
    constructor
    · exact Or.inl
    · rintro (h | rfl)
      · exact h
      · exact vecinos_ne_nil_tieneClave hmem
  · exact tieneClave_fijaClave g x a _

/-- Membership characterisation of `agregaArista`: the new adjacency
relation is the old one extended with the (undirected) edge `x — y`. -/
theorem mem_vecinos_agregaArista (g : Grafo) (x y a b : Nodo) :
    b ∈ vecinos (agregaArista g x y) a ↔
      b ∈ vecinos g a ∨ (a = x ∧ b = y) ∨ (a = y ∧ b = x) := by
  unfold agregaArista
  rw [mem_vecinos_pasoArista, mem_vecinos_pasoArista,
    vecinos_aseguraClave, vecinos_aseguraClave]
  tauto

theorem tieneClave_agregaArista (g : Grafo) (x y a : Nodo) :
    tieneClave (agregaArista g x y) a = true ↔
      tieneClave g a = true ∨ a = x ∨ a = y := by
  unfold agregaArista
  rw [tieneClave_pasoArista, tieneClave_pasoArista,
    tieneClave_aseguraClave, tieneClave_aseguraClave]
  constructor
  · rintro (((h | rfl) | rfl) | rfl) <;> tauto
  · rintro (h | rfl | rfl) <;> tauto

/-! ### Structural invariants of the parsed graph -/

/-- The two structural invariants of the spec: symmetry of the adjacency
relation, and closure of the key set under neighbour references. -/
def Simetrico (g : Grafo) : Prop :=
  ∀ a b : Nodo, b ∈ vecinos g a → tieneClave g b = true ∧ a ∈ vecinos g b

theorem simetrico_agregaArista {g : Grafo} (x y : Nodo)
    (hg : Simetrico g) : Simetrico (agregaArista g x y) := by
  intro a b hb
  rw [mem_vecinos_agregaArista] at hb
  constructor
  · rw [tieneClave_agregaArista]
    rcases hb with hb | ⟨rfl, rfl⟩ | ⟨rfl, rfl⟩
    · exact Or.inl (hg a b hb).1
    · exact Or.inr (Or.inr rfl)
    · exact Or.inr (Or.inl rfl)
  · rw [mem_vecinos_agregaArista]
    rcases hb with hb | ⟨rfl, rfl⟩ | ⟨rfl, rfl⟩
    · exact Or.inl (hg a b hb).2
    · exact Or.inr (Or.inr ⟨rfl, rfl⟩)
    · exact Or.inr (Or.inl ⟨rfl, rfl⟩)

theorem simetrico_procesarLinea {g : Grafo} (linea : List Char)
    (hg : Simetrico g) : Simetrico (procesarLinea g linea) := by
  unfold procesarLinea
  split
  · exact simetrico_agregaArista _ _ hg
  · exact hg

theorem preserva_foldl {P : Grafo → Prop}
    (hstep : ∀ g linea, P g → P (procesarLinea g linea)) :
    ∀ (lineas : List (List Char)) (g : Grafo),
      P g → P (lineas.foldl procesarLinea g) := by
  intro lineas
  induction lineas with
  | nil => intro g hg; exact hg
  | cons l ls ih =>
    intro g hg
    exact ih _ (hstep g l hg)

theorem simetrico_vacio : Simetrico [] := by
  intro a b hb
  simp [vecinos] at hb

theorem simetrico_parsear (texto : String) :
    Simetrico (parsear_entrada_a_grafo texto) :=
  preserva_foldl (fun _ linea hg => simetrico_procesarLinea linea hg) _ _
    simetrico_vacio

/-! ### Walk lemmas -/

theorem camino_ne_nil {g : Grafo} {s t : Nodo} {p : List Nodo}
    (h : Camino g s t p) : p ≠ [] := by
  cases h <;> simp

theorem camino_head {g : Grafo} {s t : Nodo} {p : List Nodo}
    (h : Camino g s t p) : p.head? = some s := by
  cases h <;> rfl

theorem camino_getLast {g : Grafo} {s t : Nodo} {p : List Nodo}
    (h : Camino g s t p) : p.getLast? = some t := by
  induction h with
  | solo a => rfl
  | paso a b t p hadj hp ih =>
    cases p with
    | nil => exact absurd rfl (camino_ne_nil hp)
    | cons c p' => rw [List.getLast?_cons_cons]; exact ih

theorem camino_extiende {g : Grafo} {s t w : Nodo} {p : List Nodo}
    (h : Camino g s t p) (hw : w ∈ vecinos g t) : Camino g s w (p ++ [w]) := by
  induction h with
  | solo a => exact Camino.paso a w w [w] hw (Camino.solo w)
  | paso a b t p hadj hp ih => exact Camino.paso a b w _ hadj (ih hw)

theorem camino_get_zero {g : Grafo} {s t : Nodo} {p : List Nodo}
    (h : Camino g s t p) (h0 : 0 < p.length) : p.get ⟨0, h0⟩ = s := by
  cases h <;> rfl

theorem camino_get_adj {g : Grafo} {s t : Nodo} {p : List Nodo}
    (h : Camino g s t p) :
    ∀ (j : Nat) (hj : j + 1 < p.length),
      p.get ⟨j + 1, hj⟩ ∈ vecinos g (p.get ⟨j, by omega⟩) := by
  induction h with
  | solo a => intro j hj; simp at hj
  | paso a b t p hadj hp ih =>
    intro j hj
    cases j with
    | zero =>
      cases p with
      | nil => exact absurd rfl (camino_ne_nil hp)
      | cons c p' =>
        have hc : c = b := by
          have := camino_head hp
          simpa using this
        subst hc
        exact hadj
    | succ k =>
      have hk : k + 1 < p.length := by
        simpa [Nat.succ_lt_succ_iff] using hj
      exact ih k hk

theorem camino_get_last_idx {g : Grafo} {s t : Nodo} {p : List Nodo}
    (h : Camino g s t p) (hl : p.length - 1 < p.length) :
    p.get ⟨p.length - 1, hl⟩ = t := by
  induction h with
  | solo a => rfl
  | paso a b t p hadj hp ih =>
    cases p with
    | nil => exact absurd rfl (camino_ne_nil hp)
    | cons c p' =>
      have hlen : (a :: c :: p').length - 1 = ((c :: p').length - 1) + 1 := by
        simp
      have hcast :
          (a :: c :: p').get ⟨(a :: c :: p').length - 1, hl⟩ =
            (c :: p').get ⟨(c :: p').length - 1, by simp⟩ := by
        simp [hlen]
      rw [hcast]
      exact ih (by simp)

theorem camino_length_pos {g : Grafo} {s t : Nodo} {p : List Nodo}
    (h : Camino g s t p) : 0 < p.length := by
  cases h <;> simp

/-! ### The neighbour-enqueueing loop -/

theorem encolaVecinos_spec (camino : List Nodo) :
    ∀ (vs : List Nodo) (cola : List (Nodo × List Nodo)) (vis : List Nodo),
      ∃ ws : List Nodo,
        encolaVecinos camino vs cola vis =
          (cola ++ ws.map (fun w => (w, camino ++ [w])), vis ++ ws) ∧
        ws.Nodup ∧
        (∀ w ∈ ws, w ∈ vs ∧ w ∉ vis) ∧
        (∀ y ∈ vs, y ∈ vis ∨ y ∈ ws) := by
  intro vs
  induction vs with
  | nil =>
    intro cola vis
    exact ⟨[], by simp [encolaVecinos], by simp, by simp, by simp⟩
  | cons v vs ih =>
    intro cola vis
    by_cases hv : v ∈ vis
    · obtain ⟨ws, heq, hnd, hmem, hcov⟩ := ih cola vis
      refine ⟨ws, ?_, hnd, ?_, ?_⟩
      · rw [show encolaVecinos camino (v :: vs) cola vis =
            encolaVecinos camino vs cola vis from by simp [encolaVecinos, hv]]
        exact heq
      · exact fun w hw => ⟨List.mem_cons_of_mem _ (hmem w hw).1, (hmem w hw).2⟩
      · intro y hy
        rcases List.mem_cons.1 hy with rfl | hy
        · exact Or.inl hv
        · exact hcov y hy
    · obtain ⟨ws, heq, hnd, hmem, hcov⟩ :=
        ih (cola ++ [(v, camino ++ [v])]) (vis ++ [v])
      refine ⟨v :: ws, ?_, ?_, ?_, ?_⟩
      · rw [show encolaVecinos camino (v :: vs) cola vis =
            encolaVecinos camino vs (cola ++ [(v, camino ++ [v])]) (vis ++ [v])
            from by simp [encolaVecinos, hv]]
        rw [heq]
        simp
      · refine List.nodup_cons.2 ⟨fun hv' => ?_, hnd⟩
        have := (hmem v hv').2
        simp at this
      · intro w hw
        rcases List.mem_cons.1 hw with rfl | hw
        · exact ⟨List.mem_cons_self _ _, hv⟩
        · refine ⟨List.mem_cons_of_mem _ (hmem w hw).1, fun hin => ?_⟩
          exact (hmem w hw).2 (List.mem_append_left _ hin)
      · intro y hy
        rcases List.mem_cons.1 hy with rfl | hy
        · exact Or.inr (List.mem_cons_self _ _)
        · rcases hcov y hy with h | h
          · rcases List.mem_append.1 h with h | h
            · exact Or.inl h
            · simp at h
              subst h
              exact Or.inr (List.mem_cons_self _ _)
          · exact Or.inr (List.mem_cons_of_mem _ h)

/-! ### Termination measure and fuel sufficiency -/

theorem filtra_mono (p q : Nodo → Bool) (hpq : ∀ x, p x = true → q x = true) :
    ∀ l : List Nodo, (l.filter p).length ≤ (l.filter q).length := by
  intro l
  induction l with
  | nil => simp
  | cons x l ih =>
    by_cases hx : p x = true
    · rw [List.filter_cons_of_pos hx, List.filter_cons_of_pos (hpq x hx)]
      simpa using ih
    · rw [List.filter_cons_of_neg (by simpa using hx)]
      by_cases hq : q x = true
      · rw [List.filter_cons_of_pos hq]
        simp only [List.length_cons]
        omega
      · rw [List.filter_cons_of_neg (by simpa using hq)]
        exact ih

theorem cuenta_insert (g : Grafo) (vis : List Nodo) (w : Nodo)
    (hw : w ∈ nodosDelGrafo g) (hnv : w ∉ vis) :
    cuentaNoVisitados g (vis ++ [w]) + 1 ≤ cuentaNoVisitados g vis := by
  unfold cuentaNoVisitados
  have hmono : ∀ x : Nodo,
      (fun x => decide (x ∉ vis ++ [w])) x = true →
      (fun x => decide (x ∉ vis)) x = true := by
    intro x hx
    simp only [decide_eq_true_eq] at hx ⊢
    intro hmem
    exact hx (List.mem_append_left _ hmem)
  revert hw
  induction (nodosDelGrafo g) with
  | nil => intro hw; simp at hw
  | cons x l ih =>
    intro hw
    by_cases hx : x = w
    · subst hx
      rw [List.filter_cons_of_neg (by simp),
        List.filter_cons_of_pos (by simpa using hnv)]
      simp only [List.length_cons]
      have := filtra_mono _ _ hmono l
      omega
    · have hxw : w ∈ l := by
        rcases List.mem_cons.1 hw with h | h
        · exact absurd h.symm hx
        · exact h
      by_cases hd : x ∈ vis
      · rw [List.filter_cons_of_neg (by
            simp only [decide_eq_true_eq, Decidable.not_not]
            exact List.mem_append_left [w] hd),
          List.filter_cons_of_neg (by simpa using hd)]
        exact ih hxw
      · have hd2 : x ∉ vis ++ [w] := by
          intro hmem
          rcases List.mem_append.1 hmem with h | h
          · exact hd h
          · simp at h
            exact hx h
        rw [List.filter_cons_of_pos (by simpa using hd2),
          List.filter_cons_of_pos (by simpa using hd)]
        simp only [List.length_cons]
        have := ih hxw
        omega

theorem cuenta_step (g : Grafo) :
    ∀ (ws vis : List Nodo), ws.Nodup →
      (∀ w ∈ ws, w ∈ nodosDelGrafo g ∧ w ∉ vis) →
      cuentaNoVisitados g (vis ++ ws) + ws.length ≤ cuentaNoVisitados g vis := by
  intro ws
  induction ws with
  | nil => intro vis _ _; simp
  | cons w ws ih =>
    intro vis hnd hmem
    have h2 : cuentaNoVisitados g (vis ++ [w]) + 1 ≤ cuentaNoVisitados g vis :=
      cuenta_insert g vis w (hmem w (List.mem_cons_self _ _)).1
        (hmem w (List.mem_cons_self _ _)).2
    have h1 : cuentaNoVisitados g ((vis ++ [w]) ++ ws) + ws.length ≤
        cuentaNoVisitados g (vis ++ [w]) := by
      refine ih (vis ++ [w]) (List.Nodup.of_cons hnd) ?_
      intro w' hw'
      refine ⟨(hmem w' (List.mem_cons_of_mem _ hw')).1, fun hin => ?_⟩
      rcases List.mem_append.1 hin with h | h
      · exact (hmem w' (List.mem_cons_of_mem _ hw')).2 h
      · simp at h
        subst h
        exact (List.nodup_cons.1 hnd).1 hw'
    rw [show vis ++ w :: ws = (vis ++ [w]) ++ ws from by simp] at *
    simp only [List.length_cons]
    omega

theorem bucleBFS_isSome (g : Grafo) (destino : Nodo) :
    ∀ (fuel : Nat) (cola : List (Nodo × List Nodo)) (vis : List Nodo),
      cuentaNoVisitados g vis + cola.length < fuel →
      (bucleBFS g destino fuel cola vis).isSome = true := by
  intro fuel
  induction fuel with
  | zero => intro cola vis h; omega
  | succ fuel ih =>
    intro cola vis h
    match cola with
    | [] => simp [bucleBFS]
    | (n, p) :: resto =>
      by_cases hd : n = destino
      · simp [bucleBFS, hd]
      · rw [show bucleBFS g destino (fuel + 1) ((n, p) :: resto) vis =
            bucleBFS g destino fuel
              (encolaVecinos p (vecinos g n) resto vis).1
              (encolaVecinos p (vecinos g n) resto vis).2
            from by simp [bucleBFS, hd]]
        obtain ⟨ws, heq, hnd, hmem, _⟩ := encolaVecinos_spec p (vecinos g n) resto vis
        rw [heq]
        apply ih
        have hst := cuenta_step g ws vis hnd
          (fun w hw => ⟨mem_vecinos_nodosDelGrafo (hmem w hw).1, (hmem w hw).2⟩)
        simp only [List.length_append, List.length_map, List.length_cons] at *
        omega

theorem fuel_ok (g : Grafo) (s : Nodo) :
    cuentaNoVisitados g [s] + 1 < fuelSuficiente g := by
  unfold fuelSuficiente cuentaNoVisitados
  have := List.length_filter_le (fun x => decide (x ∉ [s])) (nodosDelGrafo g)
  omega

/-! ### The BFS loop invariant -/

theorem getD_eq_get_nodo (l : List Nodo) (dflt : Nodo) (j : Nat)
    (h : j < l.length) : l.getD j dflt = l.get ⟨j, h⟩ := by
  rw [List.getD_eq_getElem l dflt h, List.get_eq_getElem]

theorem camino_getD_zero {g : Grafo} {s t : Nodo} {p : List Nodo}
    (h : Camino g s t p) (dflt : Nodo) : p.getD 0 dflt = s := by
  rw [getD_eq_get_nodo _ _ _ (camino_length_pos h)]
  exact camino_get_zero h _

theorem camino_getD_last {g : Grafo} {s t : Nodo} {p : List Nodo}
    (h : Camino g s t p) (dflt : Nodo) {j : Nat} (hj : j + 1 = p.length) :
    p.getD j dflt = t := by
  have hlt : j < p.length := by omega
  rw [getD_eq_get_nodo _ _ _ hlt]
  have hj' : j = p.length - 1 := by omega
  subst hj'
  exact camino_get_last_idx h _

theorem camino_getD_adj {g : Grafo} {s t : Nodo} {p : List Nodo}
    (h : Camino g s t p) (dflt : Nodo) {j : Nat} (hj : j + 1 < p.length) :
    p.getD (j + 1) dflt ∈ vecinos g (p.getD j dflt) := by
  rw [getD_eq_get_nodo _ _ _ hj, getD_eq_get_nodo _ _ _ (by omega : j < p.length)]
  have := camino_get_adj h j hj
  convert this using 2

theorem pairwise_of_forall_mem {α : Type} {R : α → α → Prop} :
    ∀ l : List α, (∀ a ∈ l, ∀ b ∈ l, R a b) → l.Pairwise R := by
  intro l
  induction l with
  | nil => intro _; simp
  | cons x l ih =>
    intro h
    refine List.pairwise_cons.2 ⟨?_, ?_⟩
    · exact fun b hb => h x (List.mem_cons_self _ _) b (List.mem_cons_of_mem _ hb)
    · exact ih fun a ha b hb =>
        h a (List.mem_cons_of_mem _ ha) b (List.mem_cons_of_mem _ hb)

/-- The queue/visited invariant of the BFS loop: every queued entry carries a
genuine walk from the source; queued nodes are visited; queued walk lengths
are sorted and span at most two consecutive values; every queued walk is a
shortest walk to its node; every walk to an unvisited node crosses the queue
at an entry at least as short as the walk's prefix, after which the walk
stays unvisited; and the target, if visited, is still queued. -/
structure InvBFS (g : Grafo) (s d : Nodo)
    (cola : List (Nodo × List Nodo)) (vis : List Nodo) : Prop where
  valida : ∀ e ∈ cola, Camino g s e.1 e.2
  enVis : ∀ e ∈ cola, e.1 ∈ vis
  ordenada : cola.Pairwise (fun e e' => e.2.length ≤ e'.2.length)
  estrecha : ∀ e ∈ cola, ∀ e' ∈ cola, e.2.length ≤ e'.2.length + 1
  minima : ∀ e ∈ cola, ∀ P, Camino g s e.1 P → e.2.length ≤ P.length
  frontera : ∀ w, w ∉ vis → ∀ P, Camino g s w P →
    ∃ (j : Nat) (e : Nodo × List Nodo), j < P.length ∧ e ∈ cola ∧
      P.getD j s = e.1 ∧ e.2.length ≤ j + 1 ∧
      ∀ j', j < j' → j' < P.length → P.getD j' s ∉ vis
  objetivo : d ∉ vis ∨ ∃ e ∈ cola, e.1 = d

theorem invBFS_init (g : Grafo) (s d : Nodo) : InvBFS g s d [(s, [s])] [s] := by
  constructor
  · intro e he
    simp at he
    subst he
    exact Camino.solo s
  · intro e he
    simp at he
    subst he
    simp
  · simp
  · intro e he e' he'
    simp at he he'
    subst he
    subst he'
    simp
  · intro e he P hP
    simp at he
    subst he
    have := camino_length_pos hP
    simpa using this
  · intro w hw P hP
    have hlen := camino_length_pos hP
    set Q : Nat → Prop := fun k => k < P.length ∧ P.getD k s = s with hQ
    have hQ0 : Q 0 := ⟨hlen, camino_getD_zero hP s⟩
    set jm := Nat.findGreatest Q (P.length - 1) with hjm
    have hQm : Q jm := Nat.findGreatest_spec (Nat.zero_le _) hQ0
    refine ⟨jm, (s, [s]), hQm.1, by simp, hQm.2, by simp, ?_⟩
    intro j' hj' hj'len hmem
    simp only [List.mem_singleton] at hmem
    have : ¬ Q j' := by
      apply Nat.findGreatest_is_greatest hj'
      omega
    exact this ⟨hj'len, hmem⟩
  · by_cases hd : d = s
    · subst hd
      exact Or.inr ⟨(d, [d]), by simp⟩
    · exact Or.inl (by simp [hd])

theorem invBFS_step {g : Grafo} {s d n : Nodo} {p : List Nodo}
    {resto : List (Nodo × List Nodo)} {vis : List Nodo}
    (inv : InvBFS g s d ((n, p) :: resto) vis) (hnd : n ≠ d) :
    InvBFS g s d (encolaVecinos p (vecinos g n) resto vis).1
      (encolaVecinos p (vecinos g n) resto vis).2 := by
  obtain ⟨ws, heq, hwnd, hwmem, hwcov⟩ := encolaVecinos_spec p (vecinos g n) resto vis
  rw [heq]
  have hvalidp : Camino g s n p := inv.valida (n, p) (List.mem_cons_self _ _)
  have hheadmin : ∀ e ∈ (n, p) :: resto, p.length ≤ e.2.length := by
    intro e he
    rcases List.mem_cons.1 he with rfl | he
    · exact le_refl _
    · exact List.rel_of_pairwise_cons inv.ordenada he
  have hnewmem : ∀ e ∈ ws.map (fun w => (w, p ++ [w])),
      ∃ w, w ∈ ws ∧ e = (w, p ++ [w]) := by
    intro e he
    obtain ⟨w, hw, hwe⟩ := List.mem_map.1 he
    exact ⟨w, hw, hwe.symm⟩
  -- A shortest-walk bound for each freshly enqueued node.
  have hnuevamin : ∀ w, w ∈ ws → ∀ P, Camino g s w P →
      p.length + 1 ≤ P.length := by
    intro w hw P hP
    have hwv : w ∉ vis := (hwmem w hw).2
    obtain ⟨j, e, hj, he, hget, hlen, htail⟩ := inv.frontera w hwv P hP
    have hple : p.length ≤ j + 1 := le_trans (hheadmin e he) hlen
    have hjlt : j + 1 < P.length := by
      rcases Nat.lt_or_ge (j + 1) P.length with h | h
      · exact h
      · exfalso
        have hj1 : j + 1 = P.length := by omega
        have : P.getD j s = w := camino_getD_last hP s hj1
        rw [hget] at this
        exact hwv (this ▸ inv.enVis e he)
    omega
  constructor
  · intro e he
    rcases List.mem_append.1 he with he | he
    · exact inv.valida e (List.mem_cons_of_mem _ he)
    · obtain ⟨w, hw, rfl⟩ := hnewmem e he
      exact camino_extiende hvalidp (hwmem w hw).1
  · intro e he
    rcases List.mem_append.1 he with he | he
    · exact List.mem_append_left _ (inv.enVis e (List.mem_cons_of_mem _ he))
    · obtain ⟨w, hw, rfl⟩ := hnewmem e he
      exact List.mem_append_right _ hw
  · refine List.pairwise_append.2 ⟨?_, ?_, ?_⟩
    · exact (List.pairwise_cons.1 inv.ordenada).2
    · refine pairwise_of_forall_mem _ ?_
      intro a ha b hb
      obtain ⟨w1, _, rfl⟩ := hnewmem a ha
      obtain ⟨w2, _, rfl⟩ := hnewmem b hb
      simp
    · intro a ha b hb
      obtain ⟨w2, _, rfl⟩ := hnewmem b hb
      have hae := inv.estrecha a (List.mem_cons_of_mem _ ha) (n, p)
        (List.mem_cons_self _ _)
      simp only [show ((n, p) : Nodo × List Nodo).2 = p from rfl] at hae
      simp only [List.length_append, List.length_cons, List.length_nil]
      omega
  · intro e he e' he'
    rcases List.mem_append.1 he with he | he <;>
      rcases List.mem_append.1 he' with he' | he'
    · exact inv.estrecha e (List.mem_cons_of_mem _ he) e'
        (List.mem_cons_of_mem _ he')
    · obtain ⟨w2, _, rfl⟩ := hnewmem e' he'
      have hee := inv.estrecha e (List.mem_cons_of_mem _ he) (n, p)
        (List.mem_cons_self _ _)
      simp only [show ((n, p) : Nodo × List Nodo).2 = p from rfl] at hee
      simp only [List.length_append, List.length_cons, List.length_nil]
      omega
    · obtain ⟨w1, _, rfl⟩ := hnewmem e he
      have := hheadmin e' (List.mem_cons_of_mem _ he')
      simp only [List.length_append, List.length_cons, List.length_nil]
      omega
    · obtain ⟨w1, _, rfl⟩ := hnewmem e he
      obtain ⟨w2, _, rfl⟩ := hnewmem e' he'
      simp
  · intro e he P hP
    rcases List.mem_append.1 he with he | he
    · exact inv.minima e (List.mem_cons_of_mem _ he) P hP
    · obtain ⟨w, hw, rfl⟩ := hnewmem e he
      have := hnuevamin w hw P hP
      simp only [List.length_append, List.length_cons, List.length_nil]
      omega
  · -- Preservation of the frontier-crossing property.
    intro w' hw' P hP
    have hw'vis : w' ∉ vis := fun h => hw' (List.mem_append_left _ h)
    have hw'ws : w' ∉ ws := fun h => hw' (List.mem_append_right _ h)
    obtain ⟨j, e, hj, he, hget, hlen, htail⟩ := inv.frontera w' hw'vis P hP
    by_cases hex : ∃ k, j < k ∧ k < P.length ∧ P.getD k s ∈ ws
    · obtain ⟨k0, hk0⟩ := hex
      set Q : Nat → Prop := fun k => j < k ∧ k < P.length ∧ P.getD k s ∈ ws
        with hQdef
      have hk0Q : Q k0 := hk0
      set jm := Nat.findGreatest Q (P.length - 1) with hjmdef
      have hQm : Q jm := Nat.findGreatest_spec (by omega : k0 ≤ P.length - 1) hk0Q
      obtain ⟨hjjm, hjmlen, hjmws⟩ := hQm
      refine ⟨jm, (P.getD jm s, p ++ [P.getD jm s]), hjmlen, ?_, rfl, ?_, ?_⟩
      · exact List.mem_append_right _ (List.mem_map.2 ⟨P.getD jm s, hjmws, rfl⟩)
      · have hple : p.length ≤ j + 1 := le_trans (hheadmin e he) hlen
        simp only [List.length_append, List.length_cons, List.length_nil]
        omega
      · intro j' hj' hj'len hmem
        rcases List.mem_append.1 hmem with hm | hm
        · exact htail j' (by omega) hj'len hm
        · have : ¬ Q j' := by
            apply Nat.findGreatest_is_greatest hj'
            omega
          exact this ⟨by omega, hj'len, hm⟩
    · push_neg at hex
      have heresto : e ∈ resto := by
        rcases List.mem_cons.1 he with rfl | he'
        · exfalso
          have hjlt : j + 1 < P.length := by
            rcases Nat.lt_or_ge (j + 1) P.length with h | h
            · exact h
            · exfalso
              have hj1 : j + 1 = P.length := by omega
              have hgl : P.getD j s = w' := camino_getD_last hP s hj1
              rw [hget] at hgl
              exact hw'vis (hgl ▸ inv.enVis _ he)
          have hady : P.getD (j + 1) s ∈ vecinos g n := by
            have := camino_getD_adj hP s hjlt
            rwa [hget] at this
          rcases hwcov _ hady with hv | hws
          · exact htail (j + 1) (by omega) hjlt hv
          · exact hex (j + 1) (by omega) hjlt hws
        · exact he'
      refine ⟨j, e, hj, List.mem_append_left _ heresto, hget, hlen, ?_⟩
      intro j' hj' hj'len hmem
      rcases List.mem_append.1 hmem with hm | hm
      · exact htail j' hj' hj'len hm
      · exact hex j' hj' hj'len hm
  · rcases inv.objetivo with hdv | ⟨e, he, hed⟩
    · by_cases hdw : d ∈ ws
      · exact Or.inr ⟨(d, p ++ [d]), List.mem_append_right _
          (List.mem_map.2 ⟨d, hdw, rfl⟩), rfl⟩
      · exact Or.inl fun h => by
          rcases List.mem_append.1 h with h | h
          · exact hdv h
          · exact hdw h
    · rcases List.mem_cons.1 he with rfl | he'
      · exact absurd hed hnd
      · exact Or.inr ⟨e, List.mem_append_left _ he', hed⟩

/-! ### Soundness, minimality and completeness of the loop -/

theorem bucleBFS_some {g : Grafo} {s d : Nodo} :
    ∀ (fuel : Nat) (cola : List (Nodo × List Nodo)) (vis : List Nodo),
      InvBFS g s d cola vis →
      ∀ ruta, bucleBFS g d fuel cola vis = some (some ruta) →
        Camino g s d ruta ∧ ∀ P, Camino g s d P → ruta.length ≤ P.length := by
  intro fuel
  induction fuel with
  | zero =>
    intro cola vis _ ruta h
    simp [bucleBFS] at h
  | succ fuel ih =>
    intro cola vis inv ruta h
    match cola with
    | [] => simp [bucleBFS] at h
    | (n, p) :: resto =>
      by_cases hd : n = d
      · rw [show bucleBFS g d (fuel + 1) ((n, p) :: resto) vis =
            some (some p) from by simp [bucleBFS, hd]] at h
        simp only [Option.some.injEq] at h
        subst h
        subst hd
        exact ⟨inv.valida (n, p) (List.mem_cons_self _ _),
          inv.minima (n, p) (List.mem_cons_self _ _)⟩
      · rw [show bucleBFS g d (fuel + 1) ((n, p) :: resto) vis =
            bucleBFS g d fuel
              (encolaVecinos p (vecinos g n) resto vis).1
              (encolaVecinos p (vecinos g n) resto vis).2
            from by simp [bucleBFS, hd]] at h
        exact ih _ _ (invBFS_step inv hd) ruta h

theorem bucleBFS_none {g : Grafo} {s d : Nodo} :
    ∀ (fuel : Nat) (cola : List (Nodo × List Nodo)) (vis : List Nodo),
      InvBFS g s d cola vis →
      bucleBFS g d fuel cola vis = some none →
      ∀ P, ¬ Camino g s d P := by
  intro fuel
  induction fuel with
  | zero =>
    intro cola vis _ h
    simp [bucleBFS] at h
  | succ fuel ih =>
    intro cola vis inv h
    match cola with
    | [] =>
      intro P hP
      have hdvis : d ∉ vis := by
        rcases inv.objetivo with h' | ⟨e, he, _⟩
        · exact h'
        · simp at he
      obtain ⟨j, e, _, he, _⟩ := inv.frontera d hdvis P hP
      simp at he
    | (n, p) :: resto =>
      by_cases hd : n = d
      · rw [show bucleBFS g d (fuel + 1) ((n, p) :: resto) vis =
            some (some p) from by simp [bucleBFS, hd]] at h
        simp at h
      · rw [show bucleBFS g d (fuel + 1) ((n, p) :: resto) vis =
            bucleBFS g d fuel
              (encolaVecinos p (vecinos g n) resto vis).1
              (encolaVecinos p (vecinos g n) resto vis).2
            from by simp [bucleBFS, hd]] at h
        exact ih _ _ (invBFS_step inv hd) h

/-- Results of the full search (both key checks passed), packaged for the
claim proofs: either a shortest walk is returned, or no walk exists. -/
theorem bfs_resultado (g : Grafo) (inicio destino : Nodo)
    (hi : tieneClave g inicio = true) (hd : tieneClave g destino = true) :
    (∃ ruta, bfs_grados_de_separacion g inicio destino = (some ruta, none) ∧
      Camino g inicio destino ruta ∧
      ∀ P, Camino g inicio destino P → ruta.length ≤ P.length) ∨
    (bfs_grados_de_separacion g inicio destino = (none, some mensajeSinConexion) ∧
      ∀ P, ¬ Camino g inicio destino P) := by
  have hcond : (!tieneClave g inicio || !tieneClave g destino) = false := by
    rw [hi, hd]
    rfl
  have hsome := bucleBFS_isSome g destino (fuelSuficiente g)
    [(inicio, [inicio])] [inicio]
    (by have := fuel_ok g inicio; simpa using this)
  unfold bfs_grados_de_separacion
  rw [hcond]
  simp only [Bool.false_eq_true, if_false]
  cases hres : bucleBFS g destino (fuelSuficiente g) [(inicio, [inicio])] [inicio] with
  | none => rw [hres] at hsome; simp at hsome
  | some r =>
    cases r with
    | none =>
      right
      exact ⟨rfl, bucleBFS_none _ _ _ (invBFS_init g inicio destino) hres⟩
    | some ruta =>
      left
      have := bucleBFS_some _ _ _ (invBFS_init g inicio destino) ruta hres
      exact ⟨ruta, rfl, this⟩

theorem bfs_clave_falta (g : Grafo) (s t : Nodo)
    (h : ¬(tieneClave g s = true ∧ tieneClave g t = true)) :
    bfs_grados_de_separacion g s t = (none, some mensajeNodoInexistente) := by
  unfold bfs_grados_de_separacion
  have hcond : (!tieneClave g s || !tieneClave g t) = true := by
    cases hs : tieneClave g s <;> cases ht : tieneClave g t <;> simp_all
  rw [hcond]
  simp

/-! ### Claim theorems -/

/-- C1: for every graph and every source and target that are keys of the
graph with the target reachable from the source,
`bfs_grados_de_separacion` returns a path that is a genuine walk from
source to target whose length is minimal among all walks (so its edge
count equals the graph-theoretic distance / BFS level, and no strictly
shorter path exists in the graph). -/
theorem C1_camino_mas_corto (g : Grafo) (s t : Nodo)
    (hs : tieneClave g s = true) (ht : tieneClave g t = true)
    (hreach : ∃ P, Camino g s t P) :
    ∃ ruta, bfs_grados_de_separacion g s t = (some ruta, none) ∧
      Camino g s t ruta ∧
      ∀ P, Camino g s t P → ruta.length ≤ P.length := by
  rcases bfs_resultado g s t hs ht with ⟨ruta, heq, hcam, hmin⟩ | ⟨_, hno⟩
  · exact ⟨ruta, heq, hcam, hmin⟩
  · obtain ⟨P, hP⟩ := hreach
    exact absurd hP (hno P)

/-- Witness for C1 at a concrete input. -/
theorem C1_camino_mas_corto_witness :
    tieneClave (parsear_entrada_a_grafo "A B") "A" = true ∧
    tieneClave (parsear_entrada_a_grafo "A B") "B" = true ∧
    ∃ ruta,
      bfs_grados_de_separacion (parsear_entrada_a_grafo "A B") "A" "B" =
        (some ruta, none) ∧
      Camino (parsear_entrada_a_grafo "A B") "A" "B" ruta ∧
      ∀ P, Camino (parsear_entrada_a_grafo "A B") "A" "B" P →
        ruta.length ≤ P.length :=
  ⟨by decide, by decide,
    C1_camino_mas_corto (parsear_entrada_a_grafo "A B") "A" "B"
      (by decide) (by decide)
      ⟨["A", "B"], Camino.paso "A" "B" "B" ["B"] (by decide) (Camino.solo "B")⟩⟩

/-- C2 counterexample: on the graph built from the eleven-line default
scenario, the search from "A" to "F" returns the route
`A → B → C → D → E → F`, whose edge count is `6 - 1 = 5`, not 6 as the
claim states. -/
theorem C2_contraejemplo :
    bfs_grados_de_separacion (parsear_entrada_a_grafo DEFAULT_CONNECTIONS)
        "A" "F" = (some ["A", "B", "C", "D", "E", "F"], none) ∧
    ¬ (["A", "B", "C", "D", "E", "F"] : List Nodo).length - 1 = 6 := by
  constructor
  · decide
  · decide

/-- C2 (amended): on the graph built from the eleven-line default scenario,
the search from "A" to "F" returns a path of 5 edges (6 nodes) — the
equal-shortest route `A → B → C → D → E → F`, which BFS discovers first
given the neighbour insertion order — i.e. 5 degrees of separation. -/
theorem C2_escenario_default :
    bfs_grados_de_separacion (parsear_entrada_a_grafo DEFAULT_CONNECTIONS)
        "A" "F" = (some ["A", "B", "C", "D", "E", "F"], none) ∧
    (["A", "B", "C", "D", "E", "F"] : List Nodo).length - 1 = 5 := by
  constructor
  · decide
  · decide

/-- C3: for every graph and every node that is one of its keys, searching
from the node to itself returns the single-element path (zero hops): the
target-equality check happens on dequeue, including the very first one. -/
theorem C3_auto_camino (g : Grafo) (a : Nodo)
    (ha : tieneClave g a = true) :
    bfs_grados_de_separacion g a a = (some [a], none) := by
  have hcond : (!tieneClave g a || !tieneClave g a) = false := by
    rw [ha]
    rfl
  unfold bfs_grados_de_separacion
  rw [hcond]
  simp only [Bool.false_eq_true, if_false]
  have hloop : bucleBFS g a (fuelSuficiente g) [(a, [a])] [a] =
      some (some [a]) := by
    rw [show fuelSuficiente g = (nodosDelGrafo g).length + 1 + 1 from rfl]
    simp [bucleBFS]
  rw [hloop]

/-- Witness for C3 at a concrete input. -/
theorem C3_auto_camino_witness :
    tieneClave (parsear_entrada_a_grafo "A B") "A" = true ∧
    bfs_grados_de_separacion (parsear_entrada_a_grafo "A B") "A" "A" =
      (some ["A"], none) :=
  ⟨by decide, C3_auto_camino (parsear_entrada_a_grafo "A B") "A" (by decide)⟩

/-- C4: the search fails with the unknown-node error exactly when the
source or the target is not a key of the graph; in that case no path is
returned, and when both are keys this error never appears. -/
theorem C4_nodo_desconocido (g : Grafo) (s t : Nodo) :
    bfs_grados_de_separacion g s t = (none, some mensajeNodoInexistente) ↔
      tieneClave g s = false ∨ tieneClave g t = false := by
  constructor
  · intro h
    by_contra hcon
    push_neg at hcon
    obtain ⟨h1, h2⟩ := hcon
    have hs : tieneClave g s = true := by
      cases hb : tieneClave g s
      · exact absurd hb h1
      · rfl
    have ht : tieneClave g t = true := by
      cases hb : tieneClave g t
      · exact absurd hb h2
      · rfl
    have hne : mensajeSinConexion ≠ mensajeNodoInexistente := by decide
    rcases bfs_resultado g s t hs ht with ⟨ruta, heq, _⟩ | ⟨heq, _⟩
    · rw [heq] at h
      simp at h
    · rw [heq] at h
      simp only [Prod.mk.injEq, Option.some.injEq] at h
      exact hne h.2
  · intro h
    apply bfs_clave_falta
    rintro ⟨hs, ht⟩
    rcases h with h | h
    · rw [hs] at h
      simp at h
    · rw [ht] at h
      simp at h

/-- Witness for C4 at a concrete input (unknown target node). -/
theorem C4_nodo_desconocido_witness :
    tieneClave (parsear_entrada_a_grafo "A B") "Z" = false ∧
    bfs_grados_de_separacion (parsear_entrada_a_grafo "A B") "A" "Z" =
      (none, some mensajeNodoInexistente) :=
  ⟨by decide,
    (C4_nodo_desconocido (parsear_entrada_a_grafo "A B") "A" "Z").mpr
      (Or.inr (by decide))⟩

/-- C5: when both endpoints are keys, the search returns the no-connection
failure exactly when there is no walk between them (separate connected
components): the frontier is exhausted and `NoPathError` is produced. -/
theorem C5_sin_conexion (g : Grafo) (s t : Nodo)
    (hs : tieneClave g s = true) (ht : tieneClave g t = true) :
    bfs_grados_de_separacion g s t = (none, some mensajeSinConexion) ↔
      ¬ ∃ P, Camino g s t P := by
  constructor
  · rintro h ⟨P, hP⟩
    rcases bfs_resultado g s t hs ht with ⟨ruta, heq, _⟩ | ⟨_, hno⟩
    · rw [heq] at h
      simp at h
    · exact hno P hP
  · intro h
    rcases bfs_resultado g s t hs ht with ⟨ruta, heq, hcam, _⟩ | ⟨heq, _⟩
    · exact absurd ⟨ruta, hcam⟩ h
    · exact heq

/-- Witness for C5 at a concrete input (two disconnected components). -/
theorem C5_sin_conexion_witness :
    tieneClave (parsear_entrada_a_grafo "A B\nC D") "A" = true ∧
    tieneClave (parsear_entrada_a_grafo "A B\nC D") "C" = true ∧
    ¬ ∃ P, Camino (parsear_entrada_a_grafo "A B\nC D") "A" "C" P :=
  ⟨by decide, by decide,
    (C5_sin_conexion (parsear_entrada_a_grafo "A B\nC D") "A" "C"
      (by decide) (by decide)).mp (by decide)⟩

/-- C6: for every graph, source and target, the returned pair has exactly
one non-null component: either a non-empty path with no error, or no path
with an error message. -/
theorem C6_exactamente_uno (g : Grafo) (s t : Nodo) :
    (∃ ruta, bfs_grados_de_separacion g s t = (some ruta, none) ∧ ruta ≠ []) ∨
    (∃ m, bfs_grados_de_separacion g s t = (none, some m)) := by
  by_cases hs : tieneClave g s = true
  · by_cases ht : tieneClave g t = true
    · rcases bfs_resultado g s t hs ht with ⟨ruta, heq, hcam, _⟩ | ⟨heq, _⟩
      · exact Or.inl ⟨ruta, heq, camino_ne_nil hcam⟩
      · exact Or.inr ⟨_, heq⟩
    · exact Or.inr ⟨_, bfs_clave_falta g s t fun hc => ht hc.2⟩
  · exact Or.inr ⟨_, bfs_clave_falta g s t fun hc => hs hc.1⟩

/-- C7: in every parsed graph, whenever `b` occurs in the neighbour list of
`a`, the node `b` is itself a key and `a` occurs in `b`'s neighbour list
(symmetry and key-closure). -/
theorem C7_simetria_clausura (texto : String) (a b : Nodo) (l : List Nodo)
    (hl : (parsear_entrada_a_grafo texto).lookup a = some l) (hb : b ∈ l) :
    ∃ l', (parsear_entrada_a_grafo texto).lookup b = some l' ∧ a ∈ l' := by
  have hsym := simetrico_parsear texto
  have hbv : b ∈ vecinos (parsear_entrada_a_grafo texto) a := by
    unfold vecinos
    rw [hl]
    exact hb
  obtain ⟨hkey, hmem⟩ := hsym a b hbv
  unfold tieneClave at hkey
  cases hl' : (parsear_entrada_a_grafo texto).lookup b with
  | none => rw [hl'] at hkey; simp at hkey
  | some l' =>
    refine ⟨l', rfl, ?_⟩
    unfold vecinos at hmem
    rw [hl'] at hmem
    exact hmem

/-- Witness for C7 at a concrete input. -/
theorem C7_simetria_clausura_witness :
    (parsear_entrada_a_grafo "A B").lookup "A" = some ["B"] ∧
    ∃ l', (parsear_entrada_a_grafo "A B").lookup "B" = some l' ∧ "A" ∈ l' :=
  ⟨by decide,
    C7_simetria_clausura "A B" "A" "B" ["B"] (by decide) (by decide)⟩

/-- C8: a line contributes an edge exactly when it tokenizes to two
maximal word-character runs; lines with 0, 1 or 3+ tokens leave the graph
unchanged (and never raise an error — the parse step is total). -/
theorem C8_linea_dos_tokens (g : Grafo) (linea : List Char) :
    (∃ t1 t2, extraeTokens (pyStrip linea) = [t1, t2] ∧
      procesarLinea g linea = agregaArista g (String.mk t1) (String.mk t2)) ∨
    ((extraeTokens (pyStrip linea)).length ≠ 2 ∧ procesarLinea g linea = g) := by
  cases htok : extraeTokens (pyStrip linea) with
  | nil => exact Or.inr ⟨by simp [htok], by simp [procesarLinea, htok]⟩
  | cons t1 rest =>
    cases rest with
    | nil => exact Or.inr ⟨by simp [htok], by simp [procesarLinea, htok]⟩
    | cons t2 rest2 =>
      cases rest2 with
      | nil => exact Or.inl ⟨t1, t2, rfl, by simp [procesarLinea, htok]⟩
      | cons t3 rest3 =>
        refine Or.inr ⟨?_, by simp [procesarLinea, htok]⟩
        simp [htok]

/-- C10: the search is total on adjacency mappings that violate
key-closure: a dequeued node that is not a key gets the default empty
neighbour list, and the loop always finishes within its fuel, returning a
result. -/
theorem C10_totalidad (g : Grafo) (s t : Nodo) :
    (∀ n, tieneClave g n = false → vecinos g n = []) ∧
    (bucleBFS g t (fuelSuficiente g) [(s, [s])] [s]).isSome = true := by
  constructor
  · intro n hn
    unfold tieneClave at hn
    unfold vecinos
    cases hl : g.lookup n with
    | none => simp
    | some v => rw [hl] at hn; simp at hn
  · apply bucleBFS_isSome
    have := fuel_ok g s
    simpa using this

/-- Witness for C10 on a graph with a dangling neighbour reference. -/
theorem C10_totalidad_witness :
    vecinos [("A", ["B"])] "B" = [] ∧
    (bucleBFS [("A", ["B"])] "B" (fuelSuficiente [("A", ["B"])])
      [("A", ["A"])] ["A"]).isSome = true :=
  ⟨(C10_totalidad [("A", ["B"])] "A" "B").1 "B" (by decide),
    (C10_totalidad [("A", ["B"])] "A" "B").2⟩

/-! ### Character, strip and line-splitting lemmas for the render
round-trip -/

theorem esCarPalabra_no_espacio {c : Char} (h : esCarPalabra c = true) :
    pyEsEspacio c = false := by
  cases hs : pyEsEspacio c
  · rfl
  · exfalso
    have hd : c = ' ' ∨ c = '\t' ∨ c = '\n' ∨ c = '\r' ∨
        c = '\x0b' ∨ c = '\x0c' := by
      simpa [pyEsEspacio, or_assoc] using hs
    rcases hd with rfl | rfl | rfl | rfl | rfl | rfl <;>
      exact absurd h (by decide)

theorem esCarPalabra_no_salto {c : Char} (h : esCarPalabra c = true) :
    c ≠ '\n' := by
  rintro rfl
  exact absurd h (by decide)

theorem dropWhile_noop_head {l : List Char} {c : Char} (h : l.head? = some c)
    (hc : pyEsEspacio c = false) : l.dropWhile pyEsEspacio = l := by
  cases l with
  | nil => rfl
  | cons x xs =>
    simp only [List.head?_cons, Option.some.injEq] at h
    subst h
    rw [List.dropWhile_cons]
    simp [hc]

theorem pyStrip_noop {l : List Char}
    (h1 : ∀ c, l.head? = some c → pyEsEspacio c = false)
    (h2 : ∀ c, l.getLast? = some c → pyEsEspacio c = false) :
    pyStrip l = l := by
  unfold pyStrip
  have hd : l.dropWhile pyEsEspacio = l := by
    cases hh : l.head? with
    | none =>
      rw [List.head?_eq_none_iff.1 hh]
      rfl
    | some c => exact dropWhile_noop_head hh (h1 c hh)
  rw [hd]
  have hr : l.reverse.dropWhile pyEsEspacio = l.reverse := by
    cases hh : l.reverse.head? with
    | none =>
      rw [List.head?_eq_none_iff.1 hh]
      rfl
    | some c =>
      refine dropWhile_noop_head hh (h2 c ?_)
      rw [← List.head?_reverse]
      exact hh
  rw [hr, List.reverse_reverse]

theorem separaLineas_sin_salto : ∀ l : List Char, '\n' ∉ l →
    separaLineas l = [l] := by
  intro l
  induction l with
  | nil => intro _; rfl
  | cons c cs ih =>
    intro h
    have hc : c ≠ '\n' := fun he => h (he ▸ List.mem_cons_self _ _)
    have hcs : '\n' ∉ cs := fun hm => h (List.mem_cons_of_mem _ hm)
    simp only [separaLineas, if_neg hc]
    rw [ih hcs]

theorem separaLineas_append : ∀ (l rest : List Char), '\n' ∉ l →
    separaLineas (l ++ '\n' :: rest) = l :: separaLineas rest := by
  intro l
  induction l with
  | nil => intro rest _; simp [separaLineas]
  | cons c cs ih =>
    intro rest h
    have hc : c ≠ '\n' := fun he => h (he ▸ List.mem_cons_self _ _)
    have hcs : '\n' ∉ cs := fun hm => h (List.mem_cons_of_mem _ hm)
    simp only [List.cons_append, separaLineas, if_neg hc, List.append_eq]
    rw [ih rest hcs]

theorem intercala_ne_nil (l : List Char) (ls : List (List Char))
    (hl : l ≠ []) : intercalaLineas (l :: ls) ≠ [] := by
  cases ls with
  | nil => simpa [intercalaLineas] using hl
  | cons l' ls' =>
    simp only [intercalaLineas]
    simp

theorem separaLineas_intercala : ∀ ls : List (List Char),
    (∀ l ∈ ls, '\n' ∉ l) → ls ≠ [] →
    separaLineas (intercalaLineas ls) = ls := by
  intro ls
  induction ls with
  | nil => intro _ h; exact absurd rfl h
  | cons l ls ih =>
    intro hno _
    cases ls with
    | nil =>
      simp only [intercalaLineas]
      exact separaLineas_sin_salto l (hno l (List.mem_cons_self _ _))
    | cons l' ls' =>
      simp only [intercalaLineas]
      rw [separaLineas_append _ _ (hno l (List.mem_cons_self _ _))]
      rw [ih (fun x hx => hno x (List.mem_cons_of_mem _ hx)) (by simp)]

theorem intercala_head? (l : List Char) (ls : List (List Char))
    (hl : l ≠ []) : (intercalaLineas (l :: ls)).head? = l.head? := by
  cases ls with
  | nil => rfl
  | cons l' ls' =>
    simp only [intercalaLineas]
    cases l with
    | nil => exact absurd rfl hl
    | cons c cs => simp

theorem getLast?_cons_ne_nil {α : Type} (a : α) {l : List α} (h : l ≠ []) :
    (a :: l).getLast? = l.getLast? := by
  have := List.getLast?_append_of_ne_nil [a] h
  simpa using this

theorem intercala_getLast? : ∀ ls : List (List Char),
    (∀ l ∈ ls, l ≠ []) → ls ≠ [] →
    ∃ l ∈ ls, (intercalaLineas ls).getLast? = l.getLast? := by
  intro ls
  induction ls with
  | nil => intro _ h; exact absurd rfl h
  | cons l ls ih =>
    intro hne _
    cases ls with
    | nil => exact ⟨l, List.mem_cons_self _ _, rfl⟩
    | cons l' ls' =>
      obtain ⟨lx, hlx, heq⟩ :=
        ih (fun x hx => hne x (List.mem_cons_of_mem _ hx)) (by simp)
      refine ⟨lx, List.mem_cons_of_mem _ hlx, ?_⟩
      simp only [intercalaLineas]
      rw [List.getLast?_append_of_ne_nil l
        (show ('\n' :: intercalaLineas (l' :: ls')) ≠ [] by simp)]
      rw [getLast?_cons_ne_nil _
        (intercala_ne_nil l' ls' (hne l' (List.mem_cons_of_mem _ (List.mem_cons_self _ _))))]
      exact heq

/-! ### Tokenizer lemmas for the render round-trip -/

theorem extraeTokensAux_buenos : ∀ (cs run : List Char),
    (∀ c ∈ run, esCarPalabra c = true) →
    ∀ t ∈ extraeTokensAux cs run, t ≠ [] ∧ ∀ c ∈ t, esCarPalabra c = true := by
  intro cs
  induction cs with
  | nil =>
    intro run hrun t ht
    simp only [extraeTokensAux] at ht
    by_cases hr : run = []
    · rw [if_pos hr] at ht
      simp at ht
    · rw [if_neg hr] at ht
      simp only [List.mem_singleton] at ht
      subst ht
      exact ⟨by simpa using hr, fun c hc => hrun c (by simpa using hc)⟩
  | cons c cs ih =>
    intro run hrun t ht
    simp only [extraeTokensAux] at ht
    by_cases hc : esCarPalabra c = true
    · rw [if_pos hc] at ht
      refine ih (c :: run) ?_ t ht
      intro c' hc'
      rcases List.mem_cons.1 hc' with rfl | h
      · exact hc
      · exact hrun _ h
    · rw [if_neg hc] at ht
      by_cases hr : run = []
      · rw [if_pos hr] at ht
        exact ih [] (by simp) t ht
      · rw [if_neg hr] at ht
        rcases List.mem_cons.1 ht with rfl | ht'
        · exact ⟨by simpa using hr, fun c' hc' => hrun c' (by simpa using hc')⟩
        · exact ih [] (by simp) t ht'

theorem extraeTokensAux_palabra : ∀ (w cs run : List Char),
    (∀ c ∈ w, esCarPalabra c = true) →
    extraeTokensAux (w ++ cs) run = extraeTokensAux cs (w.reverse ++ run) := by
  intro w
  induction w with
  | nil => intro cs run _; simp
  | cons c w ih =>
    intro cs run hw
    have hc : esCarPalabra c = true := hw c (List.mem_cons_self _ _)
    simp only [List.cons_append, extraeTokensAux, if_pos hc, List.append_eq]
    rw [ih cs (c :: run) (fun c' h => hw c' (List.mem_cons_of_mem _ h))]
    simp

theorem extraeTokens_palabra_sola (w : List Char) (hne : w ≠ [])
    (hw : ∀ c ∈ w, esCarPalabra c = true) : extraeTokens w = [w] := by
  have h := extraeTokensAux_palabra w [] [] hw
  simp only [List.append_nil] at h
  unfold extraeTokens
  rw [h]
  simp [extraeTokensAux, hne]

theorem extraeTokens_dos_palabras (w1 w2 : List Char)
    (h1 : w1 ≠ []) (hw1 : ∀ c ∈ w1, esCarPalabra c = true)
    (h2 : w2 ≠ []) (hw2 : ∀ c ∈ w2, esCarPalabra c = true) :
    extraeTokens (w1 ++ ' ' :: w2) = [w1, w2] := by
  unfold extraeTokens
  rw [extraeTokensAux_palabra w1 (' ' :: w2) [] hw1]
  simp only [List.append_nil]
  have hsp : esCarPalabra ' ' = false := by decide
  rw [show extraeTokensAux (' ' :: w2) w1.reverse =
      w1.reverse.reverse :: extraeTokensAux w2 [] from by
    simp [extraeTokensAux, hsp, h1]]
  rw [List.reverse_reverse]
  have hw2' := extraeTokens_palabra_sola w2 h2 hw2
  unfold extraeTokens at hw2'
  rw [hw2']

/-! ### Key lists, good names, and the edge-pair view -/

theorem tieneClave_iff_mem_claves (g : Grafo) (k : Nodo) :
    tieneClave g k = true ↔ k ∈ claves g := by
  unfold tieneClave claves
  rw [List.lookup_isSome_iff]
  constructor
  · rintro ⟨p, hp, hbeq⟩
    have hk : k = p.1 := by simpa using hbeq
    exact List.mem_map.2 ⟨p, hp, hk.symm⟩
  · intro h
    obtain ⟨p, hp, hpk⟩ := List.mem_map.1 h
    exact ⟨p, hp, by simp [hpk]⟩

theorem claves_fijaClave : ∀ (g : Grafo) (k : Nodo) (v : List Nodo),
    tieneClave g k = true → claves (fijaClave g k v) = claves g := by
  intro g
  induction g with
  | nil => intro k v h; simp [tieneClave] at h
  | cons e g ih =>
    intro k v h
    obtain ⟨k', v'⟩ := e
    by_cases hk : k' = k
    · subst hk
      simp [fijaClave, claves]
    · rw [show fijaClave ((k', v') :: g) k v = (k', v') :: fijaClave g k v from by
        simp [fijaClave, hk]]
      have h' : tieneClave g k = true := by
        unfold tieneClave at h ⊢
        rwa [lookup_cons_ne _ _ _ _ (fun he => hk he.symm)] at h
      simp only [claves, List.map_cons]
      exact congrArg _ (ih k v h')

theorem claves_aseguraClave_pos (g : Grafo) (k : Nodo)
    (h : tieneClave g k = true) : claves (aseguraClave g k) = claves g := by
  simp [aseguraClave, h]

theorem claves_aseguraClave_neg (g : Grafo) (k : Nodo)
    (h : tieneClave g k = false) :
    claves (aseguraClave g k) = claves g ++ [k] := by
  simp [aseguraClave, h, claves]

theorem tieneClave_aseguraClave_self (g : Grafo) (k : Nodo) :
    tieneClave (aseguraClave g k) k = true := by
  unfold tieneClave
  rw [lookup_aseguraClave_self]
  rfl

theorem nodup_claves_asegura {g : Grafo} (k : Nodo)
    (hnd : (claves g).Nodup) : (claves (aseguraClave g k)).Nodup := by
  cases hk : tieneClave g k
  · rw [claves_aseguraClave_neg g k hk]
    have hk' : k ∉ claves g := by
      intro hm
      have := (tieneClave_iff_mem_claves g k).2 hm
      rw [this] at hk
      exact absurd hk (by simp)
    refine List.Nodup.append hnd (by simp) ?_
    intro a ha hb
    simp only [List.mem_singleton] at hb
    subst hb
    exact hk' ha
  · rw [claves_aseguraClave_pos g k hk]
    exact hnd

theorem claves_pasoArista (g : Grafo) (x y : Nodo)
    (hx : tieneClave g x = true) :
    claves (if y ∈ vecinos g x then g
            else fijaClave g x (vecinos g x ++ [y])) = claves g := by
  split
  · rfl
  · exact claves_fijaClave g x _ hx

theorem claves_agregaArista (g : Grafo) (x y : Nodo) :
    claves (agregaArista g x y) =
      claves (aseguraClave (aseguraClave g x) y) := by
  have hx2 : tieneClave (aseguraClave (aseguraClave g x) y) x = true :=
    (tieneClave_aseguraClave _ y x).2 (Or.inl (tieneClave_aseguraClave_self g x))
  have hy2 : tieneClave (aseguraClave (aseguraClave g x) y) y = true :=
    tieneClave_aseguraClave_self _ y
  unfold agregaArista
  set G2 := aseguraClave (aseguraClave g x) y with hG2
  set G3 := if y ∈ vecinos G2 x then G2
            else fijaClave G2 x (vecinos G2 x ++ [y]) with hG3
  have hyG3 : tieneClave G3 y = true := by
    rw [hG3]
    exact (tieneClave_pasoArista G2 x y y).2 (Or.inl hy2)
  rw [claves_pasoArista G3 y x hyG3, hG3, claves_pasoArista G2 x y hx2]

theorem clavesNodup_agregaArista {g : Grafo} (x y : Nodo)
    (hnd : (claves g).Nodup) : (claves (agregaArista g x y)).Nodup := by
  rw [claves_agregaArista]
  exact nodup_claves_asegura y (nodup_claves_asegura x hnd)

theorem clavesNodup_parsear (texto : String) :
    (claves (parsear_entrada_a_grafo texto)).Nodup := by
  refine preserva_foldl (P := fun g => (claves g).Nodup) ?_ _ _ (by simp [claves])
  intro g linea hg
  unfold procesarLinea
  split
  · exact clavesNodup_agregaArista _ _ hg
  · exact hg

theorem buenos_agregaArista {g : Grafo} (x y : Nodo)
    (hg : BuenosNombres g) (hx : buenNombre x) (hy : buenNombre y) :
    BuenosNombres (agregaArista g x y) := by
  constructor
  · intro a ha
    rw [tieneClave_agregaArista] at ha
    rcases ha with h | rfl | rfl
    · exact hg.1 a h
    · exact hx
    · exact hy
  · intro a b hb
    rw [mem_vecinos_agregaArista] at hb
    rcases hb with h | ⟨rfl, rfl⟩ | ⟨rfl, rfl⟩
    · exact hg.2 a b h
    · exact hy
    · exact hx

theorem buenos_procesarLinea {g : Grafo} (linea : List Char)
    (hg : BuenosNombres g) : BuenosNombres (procesarLinea g linea) := by
  unfold procesarLinea
  split
  · rename_i t1 t2 heq
    have h1 := extraeTokensAux_buenos (pyStrip linea) [] (by simp) t1
      (by rw [show extraeTokensAux (pyStrip linea) [] =
          extraeTokens (pyStrip linea) from rfl, heq]; simp)
    have h2 := extraeTokensAux_buenos (pyStrip linea) [] (by simp) t2
      (by rw [show extraeTokensAux (pyStrip linea) [] =
          extraeTokens (pyStrip linea) from rfl, heq]; simp)
    exact buenos_agregaArista _ _ hg ⟨h1.1, h1.2⟩ ⟨h2.1, h2.2⟩
  · exact hg

theorem buenos_parsear (texto : String) :
    BuenosNombres (parsear_entrada_a_grafo texto) := by
  refine preserva_foldl (P := BuenosNombres) ?_ _ _ ?_
  · intro g linea hg
    exact buenos_procesarLinea linea hg
  · constructor
    · intro a ha
      simp [tieneClave] at ha
    · intro a b hb
      simp [vecinos] at hb

theorem mem_paresDeGrafo (g : Grafo) (x y : Nodo) :
    (x, y) ∈ paresDeGrafo g ↔ ∃ l, (x, l) ∈ g ∧ y ∈ l := by
  unfold paresDeGrafo
  constructor
  · intro h
    obtain ⟨L, hL, hxy⟩ := List.mem_flatten.1 h
    obtain ⟨e, he, rfl⟩ := List.mem_map.1 hL
    obtain ⟨a', l'⟩ := e
    obtain ⟨b, hb, heq⟩ := List.mem_map.1 hxy
    simp only [Prod.mk.injEq] at heq
    obtain ⟨rfl, rfl⟩ := heq
    exact ⟨l', he, hb⟩
  · rintro ⟨l, hl, hy⟩
    refine List.mem_flatten.2 ⟨List.map (fun b => (x, b)) l, ?_, ?_⟩
    · exact List.mem_map.2 ⟨(x, l), hl, rfl⟩
    · exact List.mem_map.2 ⟨y, hy, rfl⟩

theorem lookup_of_mem_nodup {g : Grafo} {k : Nodo} {v : List Nodo}
    (hnd : (claves g).Nodup) (h : (k, v) ∈ g) : g.lookup k = some v := by
  induction g with
  | nil => simp at h
  | cons e g ih =>
    obtain ⟨k', v'⟩ := e
    have hnd' := List.nodup_cons.1 (show (k' :: claves g).Nodup from hnd)
    rcases List.mem_cons.1 h with heq | hmem
    · simp only [Prod.mk.injEq] at heq
      obtain ⟨rfl, rfl⟩ := heq
      exact List.lookup_cons_self
    · have hk : k ≠ k' := by
        rintro rfl
        exact hnd'.1 (List.mem_map.2 ⟨(k, v), hmem, rfl⟩)
      rw [lookup_cons_ne _ _ _ _ hk]
      exact ih hnd'.2 hmem

theorem mem_pares_iff_vecinos {g : Grafo} (hnd : (claves g).Nodup)
    (x y : Nodo) : (x, y) ∈ paresDeGrafo g ↔ y ∈ vecinos g x := by
  rw [mem_paresDeGrafo]
  constructor
  · rintro ⟨l, hl, hy⟩
    unfold vecinos
    rw [lookup_of_mem_nodup hnd hl]
    exact hy
  · intro hy
    unfold vecinos at hy
    cases hlk : g.lookup x with
    | none => rw [hlk] at hy; simp at hy
    | some l =>
      rw [hlk] at hy
      exact ⟨l, lookup_mem hlk, hy⟩

theorem foldl_congr_mem {α β : Type} (l : List β) (f1 f2 : α → β → α)
    (h : ∀ b ∈ l, ∀ a, f1 a b = f2 a b) :
    ∀ a0, l.foldl f1 a0 = l.foldl f2 a0 := by
  induction l with
  | nil => intro a0; rfl
  | cons b l ih =>
    intro a0
    simp only [List.foldl_cons]
    rw [h b (List.mem_cons_self _ _) a0]
    exact ih (fun b' hb' a => h b' (List.mem_cons_of_mem _ hb') a) _

theorem mem_vecinos_foldl_pares :
    ∀ (pares : List (Nodo × Nodo)) (g0 : Grafo) (a b : Nodo),
      b ∈ vecinos (pares.foldl (fun h par => agregaArista h par.1 par.2) g0) a ↔
        b ∈ vecinos g0 a ∨
          ∃ par ∈ pares, (a = par.1 ∧ b = par.2) ∨ (a = par.2 ∧ b = par.1) := by
  intro pares
  induction pares with
  | nil => intro g0 a b; simp
  | cons par pares ih =>
    intro g0 a b
    simp only [List.foldl_cons]
    rw [ih, mem_vecinos_agregaArista]
    constructor
    · rintro ((h | h1 | h2) | ⟨q, hq, hcase⟩)
      · exact Or.inl h
      · exact Or.inr ⟨par, List.mem_cons_self _ _, Or.inl h1⟩
      · exact Or.inr ⟨par, List.mem_cons_self _ _, Or.inr h2⟩
      · exact Or.inr ⟨q, List.mem_cons_of_mem _ hq, hcase⟩
    · rintro (h | ⟨q, hq, hcase⟩)
      · exact Or.inl (Or.inl h)
      · rcases List.mem_cons.1 hq with rfl | hq'
        · rcases hcase with h1 | h2
          · exact Or.inl (Or.inr (Or.inl h1))
          · exact Or.inl (Or.inr (Or.inr h2))
        · exact Or.inr ⟨q, hq', hcase⟩

theorem mk_data (s : String) : String.mk s.data = s := rfl

theorem procesarLinea_lineaDePar (g' : Grafo) (x y : Nodo)
    (hx : buenNombre x) (hy : buenNombre y) :
    procesarLinea g' (lineaDePar (x, y)) = agregaArista g' x y := by
  obtain ⟨hx1, hx2⟩ := hx
  obtain ⟨hy1, hy2⟩ := hy
  have hline : pyStrip (lineaDePar (x, y)) = lineaDePar (x, y) := by
    apply pyStrip_noop
    · intro c hc
      unfold lineaDePar at hc
      cases hxd : x.data with
      | nil => exact absurd hxd hx1
      | cons c0 cs0 =>
        rw [hxd] at hc
        simp only [List.cons_append, List.head?_cons, Option.some.injEq] at hc
        subst hc
        exact esCarPalabra_no_espacio (hx2 c0 (by rw [hxd]; exact List.mem_cons_self _ _))
    · intro c hc
      unfold lineaDePar at hc
      rw [List.getLast?_append_of_ne_nil x.data (by simp),
        getLast?_cons_ne_nil _ hy1] at hc
      have hcmem : c ∈ y.data := List.mem_of_mem_getLast? (by rw [hc]; rfl)
      exact esCarPalabra_no_espacio (hy2 c hcmem)
  have htok : extraeTokens (pyStrip (lineaDePar (x, y))) = [x.data, y.data] := by
    rw [hline]
    rw [show lineaDePar (x, y) = x.data ++ ' ' :: y.data from rfl]
    exact extraeTokens_dos_palabras x.data y.data hx1 hx2 hy1 hy2
  simp [procesarLinea, htok, mk_data]

theorem lineaDePar_buena {x y : Nodo} (hx : buenNombre x) (hy : buenNombre y) :
    lineaDePar (x, y) ≠ [] ∧ '\n' ∉ lineaDePar (x, y) ∧
    (∀ c, (lineaDePar (x, y)).head? = some c → pyEsEspacio c = false) ∧
    (∀ c, (lineaDePar (x, y)).getLast? = some c → pyEsEspacio c = false) := by
  obtain ⟨hx1, hx2⟩ := hx
  obtain ⟨hy1, hy2⟩ := hy
  refine ⟨?_, ?_, ?_, ?_⟩
  · unfold lineaDePar
    simp
  · unfold lineaDePar
    intro hmem
    rcases List.mem_append.1 hmem with h | h
    · exact esCarPalabra_no_salto (hx2 _ h) rfl
    · rcases List.mem_cons.1 h with heq | h
      · exact absurd heq (by decide)
      · exact esCarPalabra_no_salto (hy2 _ h) rfl
  · intro c hc
    unfold lineaDePar at hc
    cases hxd : x.data with
    | nil => exact absurd hxd hx1
    | cons c0 cs0 =>
      rw [hxd] at hc
      simp only [List.cons_append, List.head?_cons, Option.some.injEq] at hc
      subst hc
      exact esCarPalabra_no_espacio
        (hx2 c0 (by rw [hxd]; exact List.mem_cons_self _ _))
  · intro c hc
    unfold lineaDePar at hc
    rw [List.getLast?_append_of_ne_nil x.data (by simp),
      getLast?_cons_ne_nil _ hy1] at hc
    exact esCarPalabra_no_espacio
      (hy2 c (List.mem_of_mem_getLast? (by rw [hc]; rfl)))

/-- C9: rendering a parsed graph back to edge-list text (one edge per line,
two tokens per line) and parsing again yields a graph with the same edge
set: the adjacency membership relations coincide. -/
theorem C9_parse_idempotente (texto : String) (a b : Nodo) :
    b ∈ vecinos (parsear_entrada_a_grafo
        (renderizaGrafo (parsear_entrada_a_grafo texto))) a ↔
      b ∈ vecinos (parsear_entrada_a_grafo texto) a := by
  set g := parsear_entrada_a_grafo texto with hgdef
  have hsym : Simetrico g := simetrico_parsear texto
  have hnd : (claves g).Nodup := clavesNodup_parsear texto
  have hbn : BuenosNombres g := buenos_parsear texto
  by_cases hl : lineasDeGrafo g = []
  · have hpares : paresDeGrafo g = [] := by
      unfold lineasDeGrafo at hl
      exact List.map_eq_nil_iff.1 hl
    have hren : renderizaGrafo g = String.mk [] := by
      unfold renderizaGrafo
      rw [hl]
      rfl
    rw [hren]
    rw [show parsear_entrada_a_grafo (String.mk []) = [] from rfl]
    constructor
    · intro h
      simp [vecinos] at h
    · intro h
      have hp := (mem_pares_iff_vecinos hnd a b).2 h
      rw [hpares] at hp
      simp at hp
  · have hparbuen : ∀ par ∈ paresDeGrafo g, buenNombre par.1 ∧ buenNombre par.2 := by
      intro par hpar
      obtain ⟨x, y⟩ := par
      obtain ⟨l, hlmem, hy⟩ := (mem_paresDeGrafo g x y).1 hpar
      constructor
      · refine hbn.1 x ((tieneClave_iff_mem_claves g x).2 ?_)
        exact List.mem_map.2 ⟨(x, l), hlmem, rfl⟩
      · exact hbn.2 x y ((mem_pares_iff_vecinos hnd x y).1 hpar)
    have hlin : ∀ l ∈ lineasDeGrafo g, l ≠ [] ∧ '\n' ∉ l ∧
        (∀ c, l.head? = some c → pyEsEspacio c = false) ∧
        (∀ c, l.getLast? = some c → pyEsEspacio c = false) := by
      intro l hl'
      obtain ⟨par, hpar, rfl⟩ := List.mem_map.1 hl'
      obtain ⟨x, y⟩ := par
      obtain ⟨hbx, hby⟩ := hparbuen (x, y) hpar
      exact lineaDePar_buena hbx hby
    obtain ⟨l0, ls0, hls0⟩ : ∃ l0 ls0, lineasDeGrafo g = l0 :: ls0 := by
      cases hc : lineasDeGrafo g with
      | nil => exact absurd hc hl
      | cons l0 ls0 => exact ⟨l0, ls0, rfl⟩
    have hstriptext : pyStrip (intercalaLineas (lineasDeGrafo g)) =
        intercalaLineas (lineasDeGrafo g) := by
      apply pyStrip_noop
      · intro c hc
        rw [hls0, intercala_head? l0 ls0
          (hlin l0 (by rw [hls0]; exact List.mem_cons_self _ _)).1] at hc
        exact (hlin l0 (by rw [hls0]; exact List.mem_cons_self _ _)).2.2.1 c hc
      · intro c hc
        rw [hls0] at hc
        obtain ⟨lx, hlx, heq⟩ := intercala_getLast? (l0 :: ls0)
          (fun l hm => (hlin l (by rw [hls0]; exact hm)).1) (by simp)
        rw [heq] at hc
        exact (hlin lx (by rw [hls0]; exact hlx)).2.2.2 c hc
    have hparse : parsear_entrada_a_grafo (renderizaGrafo g) =
        (lineasDeGrafo g).foldl procesarLinea [] := by
      unfold parsear_entrada_a_grafo renderizaGrafo
      rw [show (String.mk (intercalaLineas (lineasDeGrafo g))).data =
          intercalaLineas (lineasDeGrafo g) from rfl]
      rw [hstriptext]
      rw [separaLineas_intercala _ (fun l hl' => (hlin l hl').2.1)
        (by rw [hls0]; simp)]
    have hfold : (lineasDeGrafo g).foldl procesarLinea [] =
        (paresDeGrafo g).foldl (fun h par => agregaArista h par.1 par.2) [] := by
      unfold lineasDeGrafo
      rw [List.foldl_map]
      apply foldl_congr_mem
      intro par hpar g'
      obtain ⟨x, y⟩ := par
      obtain ⟨hbx, hby⟩ := hparbuen (x, y) hpar
      exact procesarLinea_lineaDePar g' x y hbx hby
    rw [hparse, hfold, mem_vecinos_foldl_pares]
    constructor
    · rintro (h | ⟨par, hpar, hcase⟩)
      · simp [vecinos] at h
      · obtain ⟨x, y⟩ := par
        have hyx : y ∈ vecinos g x := (mem_pares_iff_vecinos hnd x y).1 hpar
        rcases hcase with ⟨rfl, rfl⟩ | ⟨rfl, rfl⟩
        · exact hyx
        · exact (hsym _ _ hyx).2
    · intro h
      exact Or.inr ⟨(a, b), (mem_pares_iff_vecinos hnd a b).2 h,
        Or.inl ⟨rfl, rfl⟩⟩

